import Mathlib

/-!
# Verification of `pyramid_srpauth.noncemanager`

A shallow embedding of `src/pyramid_srpauth/noncemanager.py` (the
`SignedNonceManager` class) and proofs about it.

Modelling conventions:
* Python byte strings are `List Nat` (one entry per byte).
* Wall-clock time and timeouts are `ℚ` (the Python code computes with
  floats; we use exact rationals as the idealised semantics of that
  arithmetic).
* The HMAC primitive `hmac.new(key, msg, hashmod).digest()` is an abstract
  parameter `H : List Nat → List Nat → List Nat` carried in the
  configuration, together with the declared digest size
  (`hashmod().digest_size`); theorems that need it assume every digest has
  that length.
* A Python expression that may raise an uncaught exception is modelled
  with `Option` (`none` = exception escapes).
-/

namespace SrpAuth

/-- Byte strings: one `Nat` per byte. -/
abbrev Bytes := List Nat

/-- ASCII code of a character, used to spell out the fixed byte-string
literals of the source (`"SIGN"`, `"GENERATE"`, `":"`, `"\x00"`). -/
def colonByte : Nat := 58

/-- The bytes of the literal `"SIGN"`. -/
def signLabel : Bytes := [83, 73, 71, 78]

/-- The bytes of the literal `"GENERATE"`. -/
def generateLabel : Bytes := [71, 69, 78, 69, 82, 65, 84, 69]

/-! ## Hexadecimal encoding (`hex(int)` and `.encode("hex")`) -/

/-- Lower-case hex digit for a value below 16, as Python produces in
`hex()` and `.encode("hex")`: `0-9` then `a-f`. -/
def hexDigit (n : Nat) : Nat :=
  if n < 10 then 48 + n else 87 + n

/-- Hex digits (most significant first) of a positive number; `[]` for 0.
Matches the digits of Python `hex(n)` after the `0x` prefix is removed. -/
def toHexCore (n : Nat) : Bytes :=
  if h : n = 0 then []
  else toHexCore (n / 16) ++ [hexDigit (n % 16)]
  termination_by n
  decreasing_by exact Nat.div_lt_self (Nat.pos_of_ne_zero h) (by omega)

/-- `hex(n)[2:]` for a nonnegative `n` (the `L` suffix stripping of the
source is a no-op on the digits themselves): minimal lower-case hex
digits, with `"0"` for zero. -/
def toHex (n : Nat) : Bytes :=
  if n = 0 then [48] else toHexCore n

/-- Python 2 `s.encode("hex")`: two lower-case hex digits per byte. -/
def hexEncode (s : Bytes) : Bytes :=
  s.flatMap (fun b => [hexDigit (b / 16), hexDigit (b % 16)])

/-! ## Base64 encoding (`base64.b64encode`) -/

/-- The base64 alphabet `A-Z a-z 0-9 + /` as ASCII codes. -/
def b64chars : Bytes :=
  [65, 66, 67, 68, 69, 70, 71, 72, 73, 74, 75, 76, 77, 78, 79, 80, 81,
   82, 83, 84, 85, 86, 87, 88, 89, 90,
   97, 98, 99, 100, 101, 102, 103, 104, 105, 106, 107, 108, 109, 110,
   111, 112, 113, 114, 115, 116, 117, 118, 119, 120, 121, 122,
   48, 49, 50, 51, 52, 53, 54, 55, 56, 57, 43, 47]

/-- Character of the base64 alphabet at index `n` (defined for `n < 64`). -/
def b64tab (n : Nat) : Nat := b64chars.getD n 0

/-- `base64.b64encode`: standard base64 with `=` (61) padding. -/
def b64encode : Bytes → Bytes
  | [] => []
  | [a] => [b64tab (a / 4), b64tab (a % 4 * 16), 61, 61]
  | [a, b] => [b64tab (a / 4), b64tab (a % 4 * 16 + b / 16), b64tab (b % 16 * 4), 61]
  | a :: b :: c :: rest =>
      b64tab (a / 4) :: b64tab (a % 4 * 16 + b / 16) ::
      b64tab (b % 16 * 4 + c / 64) :: b64tab (c % 64) :: b64encode rest

/-! ## Splitting on `":"` (`str.split(":", 1)` and `str.rsplit(":", 1)`) -/

/-- `s.split(sep, 1)` when `sep` occurs: the parts before and after the
first occurrence; `none` when `sep` is absent (where the source's tuple
unpacking of the 1-element list raises `ValueError`). -/
def splitFirst (sep : Nat) : Bytes → Option (Bytes × Bytes)
  | [] => none
  | a :: r =>
      if a = sep then some ([], r)
      else (splitFirst sep r).map (fun p => (a :: p.1, p.2))

/-- `s.rsplit(sep, 1)` when `sep` occurs: the parts before and after the
last occurrence; `none` when `sep` is absent. -/
def rsplitLast (sep : Nat) (s : Bytes) : Option (Bytes × Bytes) :=
  match splitFirst sep s.reverse with
  | none => none
  | some p => some (p.2.reverse, p.1.reverse)

/-! ## `int(s, 16)` -/

/-- The whitespace bytes Python's `int()` strips from both ends. -/
def isPyWhitespace (b : Nat) : Bool :=
  b = 32 || b = 9 || b = 10 || b = 11 || b = 12 || b = 13

/-- Value of one hex digit byte (upper or lower case), `none` otherwise. -/
def hexDigitVal (b : Nat) : Option Nat :=
  if 48 ≤ b ∧ b ≤ 57 then some (b - 48)
  else if 97 ≤ b ∧ b ≤ 102 then some (b - 87)
  else if 65 ≤ b ∧ b ≤ 70 then some (b - 55)
  else none

/-- Fold a list of hex digit bytes into a number, `none` on a non-digit. -/
def parseHexDigits : Bytes → Option Nat
  | [] => some 0
  | b :: r =>
      (hexDigitVal b).bind (fun d =>
        (parseHexDigits r).map (fun m => d * 16 ^ r.length + m))

/-- The optional leading sign accepted by `int()`: the sign as `±1`
together with the rest of the string. -/
def stripSign : Bytes → Int × Bytes
  | [] => (1, [])
  | c :: r =>
      if c = 45 then (-1, r) else if c = 43 then (1, r) else (1, c :: r)

/-- The optional `0x` / `0X` prefix accepted by `int(s, 16)`. -/
def strip0x : Bytes → Bytes
  | c0 :: c1 :: r =>
      if c0 = 48 ∧ (c1 = 120 ∨ c1 = 88) then r else c0 :: c1 :: r
  | l => l

/-- `int(s, 16)` as the source applies it to the timestamp field:
optional surrounding whitespace, optional sign, optional `0x`/`0X`
prefix, then at least one hex digit; `none` models `ValueError`. -/
def parseHexInt (s : Bytes) : Option Int :=
  let s1 := ((s.dropWhile isPyWhitespace).reverse.dropWhile isPyWhitespace).reverse
  let sr := stripSign s1
  let s2 := strip0x sr.2
  if s2 = [] then none
  else (parseHexDigits s2).map (fun n => sr.1 * n)

/-! ## The manager configuration and request context -/

/-- The immutable state a `SignedNonceManager` holds after `__init__`
(minus the mutable counter store and purge queue, modelled separately):
`secret`, `timeout`, `soft_timeout` (`none` = Python `None`),
`sign_headers`, and the hash module, represented by the keyed-hash
function `H key msg = hmac.new(key, msg, hashmod).digest()` together
with `hashmod().digest_size`. -/
structure Manager where
  secret : Bytes
  timeout : ℚ
  soft_timeout : Option ℚ
  sign_headers : List String
  H : Bytes → Bytes → Bytes
  digest_size : Nat

/-- `self._signing_key = hmac.new("SIGN", secret, hashmod).digest()`. -/
def Manager.signing_key (m : Manager) : Bytes :=
  m.H signLabel m.secret

/-- `self._generation_key = hmac.new("GENERATE", secret, hashmod).digest()`. -/
def Manager.generation_key (m : Manager) : Bytes :=
  m.H generateLabel m.secret

/-- The default `soft_timeout` computed by `__init__` when the argument is
`None`: `int(timeout * 0.8) or None` — truncate `0.8 * timeout` toward
zero and turn a zero result into `None`. -/
def defaultSoftTimeout (timeout : ℚ) : Option ℚ :=
  let st : Int := ⌊timeout * (4 / 5)⌋
  if st = 0 then none else some (st : ℚ)

/-- A request context: the WSGI `environ` mapping, queried only through
`request.environ.get(header, "")`. -/
structure Request where
  environ : List (String × Bytes)

/-- `request.environ.get(header, "")`. -/
def Request.envGet (r : Request) (header : String) : Bytes :=
  match r.environ.find? (fun p => p.1 = header) with
  | some p => p.2
  | none => []

/-! ## `strings_differ` (imported from `pyramid_srpauth.utils`) -/

/-- Modelled from the spec: `strings_differ` of `pyramid_srpauth.utils` is
not under `src/`.  Per the spec it is a constant-time comparison:
"equal-length byte-by-byte comparison that does not short-circuit on
first mismatch"; it returns `true` when the lengths differ, otherwise it
accumulates the byte-by-byte mismatches and reports whether any byte
differed. -/
def strings_differ (a b : Bytes) : Bool :=
  if a.length ≠ b.length then true
  else ((a.zip b).foldl (fun acc p => acc + (if p.1 = p.2 then 0 else 1)) 0) ≠ 0

/-! ## Signing and nonce generation -/

/-- `SignedNonceManager._get_signature(value, request)`: HMAC keyed with
`self.secret` (note: *not* `self._signing_key`) over `value` followed by
`"\x00" + environ.get(header, "")` for each configured header, then
base64-encoded. -/
def Manager.get_signature (m : Manager) (value : Bytes) (r : Request) : Bytes :=
  b64encode (m.H m.secret
    (value ++ (m.sign_headers.flatMap (fun h => 0 :: r.envGet h))))

/-- The signature the spec describes: identical to
`Manager.get_signature` except that the HMAC key is the derived
`signing_key = HMAC("SIGN", secret)` rather than the raw secret.  Written
from the spec's words for comparison with the source's definition. -/
def Manager.get_signature_specified (m : Manager) (value : Bytes) (r : Request) : Bytes :=
  b64encode (m.H m.signing_key
    (value ++ (m.sign_headers.flatMap (fun h => 0 :: r.envGet h))))

/-- `SignedNonceManager.generate_nonce(request)` at wall-clock time `now`
(seconds) with `salt` the bytes returned by `os.urandom(3)`:
`hex-timestamp (tenths of a second) : hex-salt : base64-signature`. -/
def Manager.generate_nonce (m : Manager) (r : Request) (now : ℚ) (salt : Bytes) : Bytes :=
  let timestamp := toHex ⌊now * 10⌋.toNat
  let data := timestamp ++ colonByte :: hexEncode salt
  let sig := m.get_signature data r
  data ++ colonByte :: sig

/-- `SignedNonceManager._nonce_has_expired(nonce, timeout)` at wall-clock
time `now`; `timeoutArg = none` models the `timeout=None` default, which
falls back to `self.timeout`.  Any `ValueError` from splitting or
`int(timestamp, 16)` yields `true` (treated as expired). -/
def Manager.nonce_has_expired (m : Manager) (nonce : Bytes) (now : ℚ)
    (timeoutArg : Option ℚ) : Bool :=
  match splitFirst colonByte nonce with
  | none => true
  | some p =>
      match parseHexInt p.1 with
      | none => true
      | some ts => decide ((ts : ℚ) * (1 / 10) + timeoutArg.getD m.timeout ≤ now)

/-- `SignedNonceManager.is_valid_nonce(nonce, request)` at time `now`.
`none` models an uncaught exception (the `rsplit` unpacking); a nonce
that reaches the comparison is checked with `strings_differ`. -/
def Manager.is_valid_nonce (m : Manager) (nonce : Bytes) (r : Request) (now : ℚ) :
    Option Bool :=
  if m.nonce_has_expired nonce now none then some false
  else
    match rsplitLast colonByte nonce with
    | none => none
    | some p => some (!strings_differ p.2 (m.get_signature p.1 r))

/-- `SignedNonceManager.get_next_nonce(nonce, request)` at time `now`,
with `salt` the randomness a fresh nonce would use: `None` unless the
nonce has expired against `self.soft_timeout`, else a fresh nonce. -/
def Manager.get_next_nonce (m : Manager) (nonce : Bytes) (r : Request) (now : ℚ)
    (salt : Bytes) : Option Bytes :=
  if !m.nonce_has_expired nonce now m.soft_timeout then none
  else some (m.generate_nonce r now salt)

/-! ## `get_prandom_bytes` (HKDF-Expand) -/

/-- The body of the loop in `get_prandom_bytes`: starting from the
previous block `T` at counter `i`, produce the next `fuel` blocks
`T = hmac.new(generation_key, T + nonce + chr(i), hashmod).digest()`. -/
def Manager.prandomBlocks (m : Manager) (nonce : Bytes) :
    Bytes → Nat → Nat → List Bytes
  | _, _, 0 => []
  | T, i, fuel + 1 =>
      let T2 := m.H m.generation_key (T ++ nonce ++ [i])
      T2 :: m.prandomBlocks nonce T2 (i + 1) fuel

/-- `SignedNonceManager.get_prandom_bytes(nonce, size)`:
`N = ceil(size / digest_size)` blocks of HKDF-Expand, concatenated and
truncated to `size`; `none` models the `assert N <= 255` failing. -/
def Manager.get_prandom_bytes (m : Manager) (nonce : Bytes) (size : Nat) :
    Option Bytes :=
  if 255 < (size + m.digest_size - 1) / m.digest_size then none
  else some
    (((m.prandomBlocks nonce [] 1 ((size + m.digest_size - 1) / m.digest_size)).flatten).take
      size)

/-- The spec's reference formula for HKDF-Expand:
`T(i) = keyed_hash(generation_key, T(i-1) + token + byte(i))` with
`T(0)` empty.  Written from the spec's words for comparison with the
loop of the source. -/
def Manager.hkdfT (m : Manager) (nonce : Bytes) : Nat → Bytes
  | 0 => []
  | i + 1 => m.H m.generation_key (m.hkdfT nonce i ++ nonce ++ [i + 1])

/-- The spec's reference output: the first `size` bytes of
`T(1) ++ T(2) ++ ... ++ T(ceil(size / digest_size))`. -/
def Manager.hkdfExpandRef (m : Manager) (nonce : Bytes) (size : Nat) : Bytes :=
  (((List.range ((size + m.digest_size - 1) / m.digest_size)).map
      (fun j => m.hkdfT nonce (j + 1))).flatten).take size

/-! ## The mutable state: counter store and purge queue

`self._nonce_counts` is a Python dict, modelled as an association list
with unique keys; `self._nonce_purge_queue` is a `heapq` binary heap of
nonce strings.  The only heap operations the source performs are
`heappush`, reading `queue[0]` (the minimum) and `heappop` (remove the
minimum), so the heap is modelled by the sorted list of its elements:
push is ordered insertion, `queue[0]` the head, `heappop` the tail. -/

/-- Python 2 byte-string `<` (lexicographic, shorter prefix first),
the order `heapq` uses on nonce tokens. -/
def bytesLt : Bytes → Bytes → Bool
  | [], [] => false
  | [], _ :: _ => true
  | _ :: _, [] => false
  | a :: as, b :: bs => if a < b then true else if b < a then false else bytesLt as bs

/-- `heapq.heappush` on the sorted-list model of the heap. -/
def heapInsert (x : Bytes) : List Bytes → List Bytes
  | [] => [x]
  | y :: r => if bytesLt x y then x :: y :: r else y :: heapInsert x r

/-- `nonce in self._nonce_counts`. -/
def dictContains (k : Bytes) (d : List (Bytes × Int)) : Bool :=
  d.any (fun p => p.1 = k)

/-- `self._nonce_counts.get(nonce, None)`. -/
def dictGet (k : Bytes) (d : List (Bytes × Int)) : Option Int :=
  (d.find? (fun p => p.1 = k)).map Prod.snd

/-- `self._nonce_counts[nonce] = nc`: update in place, or append a new
entry when the key is absent. -/
def dictSet (k : Bytes) (v : Int) : List (Bytes × Int) → List (Bytes × Int)
  | [] => [(k, v)]
  | (k2, v2) :: r => if k2 = k then (k, v) :: r else (k2, v2) :: dictSet k v r

/-- `self._nonce_counts.pop(nonce, None)`: remove the entry if present. -/
def dictPop (k : Bytes) : List (Bytes × Int) → List (Bytes × Int)
  | [] => []
  | (k2, v2) :: r => if k2 = k then r else (k2, v2) :: dictPop k r

/-- The mutable state of a `SignedNonceManager`. -/
structure NonceState where
  nonce_counts : List (Bytes × Int)
  nonce_purge_queue : List Bytes

/-- The state of a freshly constructed manager. -/
def initialState : NonceState := ⟨[], []⟩

/-- `SignedNonceManager.get_nonce_count(nonce)`. -/
def Manager.get_nonce_count (_ : Manager) (nonce : Bytes) (s : NonceState) : Option Int :=
  dictGet nonce s.nonce_counts

/-- The loop of `_purge_expired_nonces` at time `now`: examine the head
of the queue, stop if it has not expired, otherwise drop it from both
the queue and the counter store and continue; at most `fuel` entries are
examined (the Python loop runs `min(limit, len(queue))` times, and the
empty-queue case stops it exactly when `len(queue)` is the binder). -/
def Manager.purgeLoop (m : Manager) (now : ℚ) : Nat → NonceState → NonceState
  | 0, s => s
  | fuel + 1, s =>
      match s.nonce_purge_queue with
      | [] => s
      | n :: rest =>
          if !m.nonce_has_expired n now none then s
          else m.purgeLoop now fuel ⟨dictPop n s.nonce_counts, rest⟩

/-- `SignedNonceManager._purge_expired_nonces(limit)` at time `now`;
`limit = none` models the `limit=None` default (purge the whole queue). -/
def Manager.purge_expired_nonces (m : Manager) (now : ℚ) (limit : Option Nat)
    (s : NonceState) : NonceState :=
  m.purgeLoop now (limit.getD s.nonce_purge_queue.length) s

/-- `SignedNonceManager.set_nonce_count(nonce, nc)` at time `now`: on
first registration of a nonce, purge up to 10 expired entries and push
the nonce onto the queue; then write the counter. -/
def Manager.set_nonce_count (m : Manager) (now : ℚ) (nonce : Bytes) (nc : Int)
    (s : NonceState) : NonceState :=
  let s1 :=
    if dictContains nonce s.nonce_counts then s
    else
      let s2 := m.purge_expired_nonces now (some 10) s
      { s2 with nonce_purge_queue := heapInsert nonce s2.nonce_purge_queue }
  { s1 with nonce_counts := dictSet nonce nc s1.nonce_counts }

/-- The state invariant: the queue has no duplicates, the counter store
has no duplicate keys, and a token is in the queue exactly when it has a
counter-store entry. -/
def StateWF (s : NonceState) : Prop :=
  s.nonce_purge_queue.Nodup ∧
  (s.nonce_counts.map Prod.fst).Nodup ∧
  ∀ n, n ∈ s.nonce_purge_queue ↔ dictContains n s.nonce_counts = true

/-! ## Concrete instances used in counterexamples and witnesses

The hash module is abstract in the embedding; concrete evaluations
instantiate it with a toy two-byte digest function. -/

/-- A toy two-byte digest standing in for `hashmod` in concrete
evaluations: the digest records the lengths of key and message
(mod 256).  Its only purpose is to make the pipeline executable. -/
def tinyH (key msg : Bytes) : Bytes := [key.length % 256, msg.length % 256]

/-- A manager with the default-like configuration `timeout=300`,
`soft_timeout=240`, signing the user-agent header. -/
def mgrMain : Manager :=
  ⟨[1, 2, 3], 300, some 240, ["HTTP_USER_AGENT"], tinyH, 2⟩

/-- A manager with a sub-tenth-of-a-second hard timeout (0.05 s). -/
def mgrTinyTimeout : Manager :=
  ⟨[1, 2, 3], 1 / 20, none, ["HTTP_USER_AGENT"], tinyH, 2⟩

/-- A manager whose `soft_timeout` is `None` (renewal "disabled" per the
spec), hard timeout 300 s. -/
def mgrNoSoft : Manager :=
  ⟨[1, 2, 3], 300, none, ["HTTP_USER_AGENT"], tinyH, 2⟩

/-- A manager whose `soft_timeout` is explicitly `0`. -/
def mgrZeroSoft : Manager :=
  ⟨[1, 2, 3], 300, some 0, ["HTTP_USER_AGENT"], tinyH, 2⟩

/-- A request whose user-agent header is `"UA"`. -/
def reqUA : Request := ⟨[("HTTP_USER_AGENT", [85, 65])]⟩

/-! ## Lemmas: hex encoding round-trips through `int(s, 16)` -/

theorem hexDigitVal_hexDigit (k : Nat) (h : k < 16) :
    hexDigitVal (hexDigit k) = some k := by
  interval_cases k <;> decide

theorem mem_toHexCore_isSome (n : Nat) :
    ∀ b ∈ toHexCore n, (hexDigitVal b).isSome := by
  induction n using Nat.strong_induction_on with
  | _ n ih =>
    rw [toHexCore]
    split
    · simp
    · intro b hb
      rcases List.mem_append.mp hb with h | h
      · exact ih (n / 16) (Nat.div_lt_self (Nat.pos_of_ne_zero (by assumption)) (by omega)) b h
      · rw [List.mem_singleton.mp h, hexDigitVal_hexDigit _ (Nat.mod_lt _ (by omega))]
        rfl

theorem mem_toHex_isSome (n : Nat) :
    ∀ b ∈ toHex n, (hexDigitVal b).isSome := by
  unfold toHex
  split
  · intro b hb
    rw [List.mem_singleton.mp hb]
    rfl
  · exact mem_toHexCore_isSome n

theorem hexByte_ne {b : Nat} (hb : (hexDigitVal b).isSome) {c : Nat}
    (hc : hexDigitVal c = none) : b ≠ c := by
  intro e
  rw [e, hc] at hb
  simp at hb

theorem toHex_ne_nil (n : Nat) : toHex n ≠ [] := by
  unfold toHex
  split
  · simp
  · rw [toHexCore]
    simp only [dif_neg (by assumption)]
    simp

theorem parseHexDigits_append (l1 : Bytes) : ∀ (l2 : Bytes) (a b : Nat),
    parseHexDigits l1 = some a → parseHexDigits l2 = some b →
    parseHexDigits (l1 ++ l2) = some (a * 16 ^ l2.length + b) := by
  induction l1 with
  | nil =>
    intro l2 a b h1 h2
    simp only [parseHexDigits, Option.some.injEq] at h1
    simp [← h1, h2]
  | cons c r ih =>
    intro l2 a b h1 h2
    simp only [parseHexDigits] at h1
    cases hd : hexDigitVal c with
    | none => rw [hd] at h1; simp at h1
    | some d =>
      rw [hd] at h1
      cases hm : parseHexDigits r with
      | none => rw [hm] at h1; simp at h1
      | some m =>
        rw [hm] at h1
        simp only [Option.some_bind, Option.map_some', Option.some.injEq] at h1
        simp only [List.cons_append, parseHexDigits, hd, Option.some_bind, List.append_eq]
        rw [ih l2 m b hm h2]
        simp only [Option.map_some', Option.some.injEq]
        rw [← h1]
        simp only [List.length_append, pow_add]
        ring

theorem parseHexDigits_single (k : Nat) (h : k < 16) :
    parseHexDigits [hexDigit k] = some k := by
  simp [parseHexDigits, hexDigitVal_hexDigit k h]

theorem parseHexDigits_toHexCore (n : Nat) :
    parseHexDigits (toHexCore n) = some n := by
  induction n using Nat.strong_induction_on with
  | _ n ih =>
    rw [toHexCore]
    split
    · simp only [parseHexDigits]
      congr 1
      omega
    · rw [parseHexDigits_append (toHexCore (n / 16)) [hexDigit (n % 16)] (n / 16) (n % 16)
        (ih (n / 16) (Nat.div_lt_self (Nat.pos_of_ne_zero (by assumption)) (by omega)))
        (parseHexDigits_single _ (Nat.mod_lt _ (by omega)))]
      simp only [List.length_singleton, pow_one, Option.some.injEq]
      omega

theorem parseHexDigits_toHex (n : Nat) :
    parseHexDigits (toHex n) = some n := by
  unfold toHex
  split
  · subst n
    decide
  · exact parseHexDigits_toHexCore n

theorem dropWhile_eq_self_of_none {p : Nat → Bool} :
    ∀ l : Bytes, (∀ b ∈ l, p b = false) → l.dropWhile p = l := by
  intro l h
  cases l with
  | nil => rfl
  | cons c r =>
    rw [List.dropWhile_cons, if_neg]
    simp [h c (by simp)]

theorem stripSign_eq_self {c : Nat} (r : Bytes) (h45 : c ≠ 45) (h43 : c ≠ 43) :
    stripSign (c :: r) = (1, c :: r) := by
  simp [stripSign, h45, h43]

theorem strip0x_eq_self : ∀ (l : Bytes),
    (∀ b ∈ l, (hexDigitVal b).isSome) → strip0x l = l := by
  intro l h
  match l with
  | [] => rfl
  | [c] => rfl
  | c0 :: c1 :: r =>
    have hc1 : (hexDigitVal c1).isSome := h c1 (by simp)
    simp only [strip0x]
    rw [if_neg]
    rintro ⟨-, h120 | h88⟩
    · exact hexByte_ne hc1 (by decide) h120
    · exact hexByte_ne hc1 (by decide) h88

/-- `int(s, 16)` recovers the number encoded by `hex(n)[2:]`. -/
theorem parseHexInt_toHex (n : Nat) : parseHexInt (toHex n) = some (n : Int) := by
  have hdigit : ∀ b ∈ toHex n, (hexDigitVal b).isSome := mem_toHex_isSome n
  have hws : ∀ b ∈ toHex n, isPyWhitespace b = false := by
    intro b hb
    have := hdigit b hb
    unfold hexDigitVal at this
    unfold isPyWhitespace
    split at this
    · simp
      omega
    · split at this
      · simp
        omega
      · split at this
        · simp
          omega
        · simp at this
  unfold parseHexInt
  rw [dropWhile_eq_self_of_none _ hws,
      dropWhile_eq_self_of_none _ (by intro b hb; exact hws b (List.mem_reverse.mp hb)),
      List.reverse_reverse]
  rcases he : toHex n with _ | ⟨c, r⟩
  · exact absurd he (toHex_ne_nil n)
  · rw [he] at hdigit
    have hc : (hexDigitVal c).isSome := hdigit c (by simp)
    simp only [stripSign_eq_self r (hexByte_ne hc (by decide)) (hexByte_ne hc (by decide)),
      strip0x_eq_self (c :: r) hdigit]
    rw [if_neg (by simp), ← he, parseHexDigits_toHex n]
    simp

/-! ## Lemmas: no byte of a hex or base64 encoding is the `":"` separator -/

theorem hexDigit_ne_colon (k : Nat) : hexDigit k ≠ colonByte := by
  unfold hexDigit colonByte
  split <;> omega

theorem colon_not_mem_toHex (n : Nat) : colonByte ∉ toHex n := by
  intro h
  exact hexByte_ne (mem_toHex_isSome n colonByte h) (by decide) rfl

theorem colon_not_mem_hexEncode (s : Bytes) : colonByte ∉ hexEncode s := by
  intro h
  obtain ⟨x, -, hx⟩ := List.mem_flatMap.mp h
  simp only [List.mem_cons, List.not_mem_nil, or_false] at hx
  rcases hx with h1 | h1 <;> exact hexDigit_ne_colon _ h1.symm

theorem b64tab_ne_colon (k : Nat) : b64tab k ≠ colonByte := by
  rcases Nat.lt_or_ge k 64 with h | h
  · interval_cases k <;> decide
  · unfold b64tab
    rw [List.getD_eq_default]
    · decide
    · calc b64chars.length = 64 := by decide
        _ ≤ k := h

theorem colon_not_mem_b64encode : ∀ (l : Bytes), colonByte ∉ b64encode l
  | [] => by simp [b64encode]
  | [a] => by
      simp only [b64encode, List.mem_cons, List.not_mem_nil, or_false]
      rintro (h | h | h | h) <;>
        first
          | exact b64tab_ne_colon _ h.symm
          | exact absurd h.symm (by decide)
  | [a, b] => by
      simp only [b64encode, List.mem_cons, List.not_mem_nil, or_false]
      rintro (h | h | h | h) <;>
        first
          | exact b64tab_ne_colon _ h.symm
          | exact absurd h.symm (by decide)
  | a :: b :: c :: rest => by
      simp only [b64encode, List.mem_cons]
      rintro (h | h | h | h | h)
      · exact b64tab_ne_colon _ h.symm
      · exact b64tab_ne_colon _ h.symm
      · exact b64tab_ne_colon _ h.symm
      · exact b64tab_ne_colon _ h.symm
      · exact colon_not_mem_b64encode rest h

/-! ## Lemmas: splitting a token back into its parts -/

theorem splitFirst_append (sep : Nat) : ∀ (l1 l2 : Bytes), sep ∉ l1 →
    splitFirst sep (l1 ++ sep :: l2) = some (l1, l2) := by
  intro l1
  induction l1 with
  | nil =>
    intro l2 _
    simp [splitFirst]
  | cons a r ih =>
    intro l2 h
    have ha : a ≠ sep := fun e => h (e ▸ List.mem_cons_self a r)
    simp only [List.cons_append, splitFirst, if_neg ha, List.append_eq,
      ih l2 (fun hm => h (List.mem_cons_of_mem a hm)), Option.map_some']

theorem rsplitLast_append (sep : Nat) (l1 l2 : Bytes) (h : sep ∉ l2) :
    rsplitLast sep (l1 ++ sep :: l2) = some (l1, l2) := by
  unfold rsplitLast
  have hrev : (l1 ++ sep :: l2).reverse = l2.reverse ++ sep :: l1.reverse := by
    simp [List.reverse_append]
  rw [hrev, splitFirst_append sep l2.reverse l1.reverse (fun hm => h (List.mem_reverse.mp hm))]
  simp

/-! ## Lemmas: `strings_differ` on equal strings -/

theorem zip_self {α : Type} : ∀ (l : List α), l.zip l = l.map (fun a => (a, a))
  | [] => rfl
  | a :: r => by simp [List.zip_cons_cons, zip_self r]

theorem strings_differ_self (a : Bytes) : strings_differ a a = false := by
  unfold strings_differ
  rw [if_neg (by simp)]
  rw [zip_self]
  have : ∀ (l : Bytes) (acc : Nat),
      (l.map (fun a => (a, a))).foldl (fun acc p => acc + (if p.1 = p.2 then 0 else 1)) acc
        = acc := by
    intro l
    induction l with
    | nil => intro acc; rfl
    | cons x r ih => intro acc; simp [ih]
  simp [this]

/-! ## Lemmas: the shape of a generated nonce -/

theorem generate_nonce_eq (m : Manager) (r : Request) (now : ℚ) (salt : Bytes) :
    m.generate_nonce r now salt =
      (toHex ⌊now * 10⌋.toNat ++ colonByte :: hexEncode salt) ++
        colonByte :: m.get_signature
          (toHex ⌊now * 10⌋.toNat ++ colonByte :: hexEncode salt) r := rfl

theorem splitFirst_generate (m : Manager) (r : Request) (now : ℚ) (salt : Bytes) :
    splitFirst colonByte (m.generate_nonce r now salt) =
      some (toHex ⌊now * 10⌋.toNat,
        hexEncode salt ++ colonByte :: m.get_signature
          (toHex ⌊now * 10⌋.toNat ++ colonByte :: hexEncode salt) r) := by
  rw [generate_nonce_eq, List.append_assoc, List.cons_append]
  exact splitFirst_append colonByte _ _ (colon_not_mem_toHex _)

theorem rsplitLast_generate (m : Manager) (r : Request) (now : ℚ) (salt : Bytes) :
    rsplitLast colonByte (m.generate_nonce r now salt) =
      some (toHex ⌊now * 10⌋.toNat ++ colonByte :: hexEncode salt,
        m.get_signature (toHex ⌊now * 10⌋.toNat ++ colonByte :: hexEncode salt) r) := by
  rw [generate_nonce_eq]
  exact rsplitLast_append colonByte _ _ (colon_not_mem_b64encode _)

/-- A nonce generated at time `now ≥ 0` is not expired at `now` itself,
for any effective timeout of at least one timestamp-resolution unit
(0.1 s). -/
theorem nonce_has_expired_fresh (m : Manager) (r : Request) (now : ℚ) (salt : Bytes)
    (tau : Option ℚ) (h0 : 0 ≤ now) (h1 : 1 / 10 ≤ tau.getD m.timeout) :
    m.nonce_has_expired (m.generate_nonce r now salt) now tau = false := by
  have hf0 : (0 : Int) ≤ ⌊now * 10⌋ := Int.floor_nonneg.mpr (by linarith)
  simp only [Manager.nonce_has_expired, splitFirst_generate, parseHexInt_toHex,
    decide_eq_false_iff_not]
  rw [show (((⌊now * 10⌋.toNat : Int) : ℚ)) = ((⌊now * 10⌋ : Int) : ℚ) from by
    exact_mod_cast congrArg (fun z : Int => (z : ℚ)) (Int.toNat_of_nonneg hf0)]
  have hlow : (now * 10 : ℚ) - 1 < (⌊now * 10⌋ : ℚ) := Int.sub_one_lt_floor _
  intro hle
  linarith

/-- C2 (amended): a nonce returned by `generate_nonce` at time `now ≥ 0`
is immediately accepted by `is_valid_nonce` in the same context,
provided the hard timeout is at least 0.1 s (one timestamp-resolution
unit). -/
theorem generate_nonce_round_trip (m : Manager) (r : Request) (now : ℚ) (salt : Bytes)
    (h0 : 0 ≤ now) (h1 : 1 / 10 ≤ m.timeout) :
    m.is_valid_nonce (m.generate_nonce r now salt) r now = some true := by
  unfold Manager.is_valid_nonce
  rw [nonce_has_expired_fresh m r now salt none h0 (by simpa using h1)]
  simp only [Bool.false_eq_true, if_false, rsplitLast_generate, strings_differ_self,
    Bool.not_false]

/-- C2 witness: the round trip holds at the concrete configuration
`timeout=300, soft_timeout=240` at time 3.5 s. -/
theorem generate_nonce_round_trip_witness :
    (0 : ℚ) ≤ 7 / 2 ∧ (1 : ℚ) / 10 ≤ mgrMain.timeout ∧
      mgrMain.is_valid_nonce (mgrMain.generate_nonce reqUA (7 / 2) [9, 9, 9]) reqUA (7 / 2) =
        some true :=
  ⟨by norm_num, by norm_num [mgrMain],
    generate_nonce_round_trip mgrMain reqUA (7 / 2) [9, 9, 9] (by norm_num)
      (by norm_num [mgrMain])⟩

/-- An expired nonce is rejected before the signature is examined. -/
theorem is_valid_nonce_of_expired (m : Manager) (nonce : Bytes) (r : Request) (now : ℚ)
    (h : m.nonce_has_expired nonce now none = true) :
    m.is_valid_nonce nonce r now = some false := by
  unfold Manager.is_valid_nonce
  rw [h]
  simp

/-- C2 counterexample: with a positive hard timeout of 0.05 s — below
the 0.1 s timestamp resolution — a nonce generated at time 0.15 s is
already rejected at the very moment of issuance, so the claim as stated
("hard timeout positive" suffices) is false. -/
theorem generate_nonce_round_trip_cex :
    0 < mgrTinyTimeout.timeout ∧
      mgrTinyTimeout.is_valid_nonce
        (mgrTinyTimeout.generate_nonce reqUA (3 / 20) [0, 1, 2]) reqUA (3 / 20) =
        some false := by
  constructor
  · norm_num [mgrTinyTimeout]
  · refine is_valid_nonce_of_expired _ _ _ _ ?_
    simp only [Manager.nonce_has_expired, splitFirst_generate, parseHexInt_toHex]
    rw [show ⌊(3 / 20 : ℚ) * 10⌋ = (1 : Int) from Int.floor_eq_iff.mpr (by norm_num)]
    norm_num [mgrTinyTimeout]

/-- C1: the signature actually computed by `_get_signature` is keyed
with the raw `secret`, not with the derived
`signing_key = HMAC("SIGN", secret)`; at a concrete instance the two
differ, so the raw secret *is* used directly as the HMAC signing key
(`_signing_key` is derived in `__init__` but never used).  The first
conjunct pins down what the code computes, the second refutes the
claimed equality with the spec's formula. -/
theorem get_signature_uses_raw_secret :
    mgrMain.get_signature [48, 58, 97] reqUA =
      b64encode (mgrMain.H mgrMain.secret
        ([48, 58, 97] ++ [0] ++ reqUA.envGet "HTTP_USER_AGENT")) ∧
    mgrMain.get_signature [48, 58, 97] reqUA ≠
      mgrMain.get_signature_specified [48, 58, 97] reqUA := by
  constructor
  · rfl
  · decide

/-- C5: a token whose encoded age at call time is at least the hard
timeout is rejected by `is_valid_nonce`, whatever the request context
(in particular even when the embedded signature is correct for it). -/
theorem is_valid_nonce_hard_timeout (m : Manager) (nonce : Bytes) (r : Request) (now : ℚ)
    (tsStr rest : Bytes) (ts : Int)
    (hsplit : splitFirst colonByte nonce = some (tsStr, rest))
    (hts : parseHexInt tsStr = some ts)
    (hage : m.timeout ≤ now - (ts : ℚ) * (1 / 10)) :
    m.is_valid_nonce nonce r now = some false := by
  refine is_valid_nonce_of_expired _ _ _ _ ?_
  simp only [Manager.nonce_has_expired, hsplit, hts, Option.getD_none]
  exact decide_eq_true (by linarith)

/-- C5 witness: the token `"0:a"` (timestamp 0) at time 1000 s with
timeout 300 s is rejected. -/
theorem is_valid_nonce_hard_timeout_witness :
    splitFirst colonByte [48, 58, 97] = some ([48], [97]) ∧
      parseHexInt [48] = some 0 ∧
      mgrMain.timeout ≤ 1000 - (0 : ℚ) * (1 / 10) ∧
      mgrMain.is_valid_nonce [48, 58, 97] reqUA 1000 = some false :=
  ⟨by decide, by decide, by norm_num [mgrMain],
    is_valid_nonce_hard_timeout mgrMain [48, 58, 97] reqUA 1000 [48] [97] 0
      (by decide) (by decide) (by norm_num [mgrMain])⟩

/-- C6: a malformed token — no `":"` at all, or a timestamp field that
`int(_, 16)` cannot parse — is classified as expired and is rejected by
`is_valid_nonce` with a plain `False` (`some false`: no exception
escapes). -/
theorem is_valid_nonce_malformed (m : Manager) (nonce : Bytes) (r : Request) (now : ℚ)
    (h : splitFirst colonByte nonce = none ∨
      ∃ p, splitFirst colonByte nonce = some p ∧ parseHexInt p.1 = none) :
    m.nonce_has_expired nonce now none = true ∧
      m.is_valid_nonce nonce r now = some false := by
  have hexp : m.nonce_has_expired nonce now none = true := by
    rcases h with h | ⟨p, hp, hparse⟩
    · simp only [Manager.nonce_has_expired, h]
    · simp only [Manager.nonce_has_expired, hp, hparse]
  exact ⟨hexp, is_valid_nonce_of_expired _ _ _ _ hexp⟩

/-- C6 witness: the delimiter-free token `"x"` is expired and invalid. -/
theorem is_valid_nonce_malformed_witness :
    (splitFirst colonByte [120] = none ∨
      ∃ p, splitFirst colonByte [120] = some p ∧ parseHexInt p.1 = none) ∧
      mgrMain.nonce_has_expired [120] 5 none = true ∧
      mgrMain.is_valid_nonce [120] reqUA 5 = some false :=
  ⟨Or.inl (by decide),
    is_valid_nonce_malformed mgrMain [120] reqUA 5 (Or.inl (by decide))⟩

/-- C3 (amended): with an *enabled* soft timeout, `get_next_nonce`
returns `None` while the token's age is below the soft timeout and a
freshly generated nonce as soon as the age reaches the soft timeout —
including when the token is already past its hard timeout, since
`get_next_nonce` performs no hard-timeout check at all. -/
theorem get_next_nonce_soft_renewal (m : Manager) (nonce : Bytes) (r : Request) (now : ℚ)
    (salt : Bytes) (tsStr rest : Bytes) (ts : Int) (tsoft : ℚ)
    (hsplit : splitFirst colonByte nonce = some (tsStr, rest))
    (hts : parseHexInt tsStr = some ts)
    (hsoft : m.soft_timeout = some tsoft) :
    (now < (ts : ℚ) * (1 / 10) + tsoft → m.get_next_nonce nonce r now salt = none) ∧
    ((ts : ℚ) * (1 / 10) + tsoft ≤ now →
      m.get_next_nonce nonce r now salt = some (m.generate_nonce r now salt)) := by
  have hexp : m.nonce_has_expired nonce now m.soft_timeout
      = decide ((ts : ℚ) * (1 / 10) + tsoft ≤ now) := by
    simp only [Manager.nonce_has_expired, hsplit, hts, hsoft, Option.getD_some]
  constructor
  · intro hlt
    unfold Manager.get_next_nonce
    rw [hexp, decide_eq_false (by linarith : ¬((ts : ℚ) * (1 / 10) + tsoft ≤ now))]
    simp
  · intro hle
    unfold Manager.get_next_nonce
    rw [hexp, decide_eq_true hle]
    simp

/-- C3 witness: with `timeout=300, soft_timeout=240`, the token `"0:a"`
is renewed at 250 s (soft-expired) and kept at 100 s. -/
theorem get_next_nonce_soft_renewal_witness :
    splitFirst colonByte [48, 58, 97] = some ([48], [97]) ∧
      parseHexInt [48] = some 0 ∧
      mgrMain.soft_timeout = some 240 ∧
      ((250 : ℚ) < (0 : ℚ) * (1 / 10) + 240 →
        mgrMain.get_next_nonce [48, 58, 97] reqUA 250 [7, 7, 7] = none) ∧
      ((0 : ℚ) * (1 / 10) + 240 ≤ 250 →
        mgrMain.get_next_nonce [48, 58, 97] reqUA 250 [7, 7, 7] =
          some (mgrMain.generate_nonce reqUA 250 [7, 7, 7])) :=
  ⟨by decide, by decide, rfl,
    (get_next_nonce_soft_renewal mgrMain [48, 58, 97] reqUA 250 [7, 7, 7] [48] [97] 0 240
      (by decide) (by decide) rfl).1,
    (get_next_nonce_soft_renewal mgrMain [48, 58, 97] reqUA 250 [7, 7, 7] [48] [97] 0 240
      (by decide) (by decide) rfl).2⟩

/-- C3 counterexample: the token `"0:a"` is hard-expired at time
1000000 s (timeout 300 s), yet `get_next_nonce` returns a replacement
token rather than the `None` the claim requires for hard-expired
tokens. -/
theorem get_next_nonce_hard_expired_cex :
    mgrMain.nonce_has_expired [48, 58, 97] 1000000 none = true ∧
      mgrMain.get_next_nonce [48, 58, 97] reqUA 1000000 [0, 1, 2] ≠ none := by
  have h1 : splitFirst colonByte [48, 58, 97] = some ([48], [97]) := by decide
  have h2 : parseHexInt [48] = some 0 := by decide
  refine ⟨?_, ?_⟩
  · simp only [Manager.nonce_has_expired, h1, h2, Option.getD_none]
    exact decide_eq_true (by norm_num [mgrMain])
  · have hexp2 : mgrMain.nonce_has_expired [48, 58, 97] 1000000 mgrMain.soft_timeout
        = true := by
      simp only [Manager.nonce_has_expired, h1, h2]
      exact decide_eq_true (by norm_num [mgrMain])
    unfold Manager.get_next_nonce
    rw [hexp2]
    simp

/-- C4 (amended): an *unset* soft timeout (`None` — as also produced by
the default computation `int(timeout*0.8) or None` when it yields 0)
does not disable renewal: `_nonce_has_expired` then falls back to the
hard timeout, so `get_next_nonce` returns `None` exactly while the token
is hard-valid and a fresh token once it is hard-expired; an *explicit*
soft timeout of `0` renews every token whose timestamp is in the past. -/
theorem get_next_nonce_soft_unset (m : Manager) (nonce : Bytes) (r : Request) (now : ℚ)
    (salt : Bytes) (tsStr rest : Bytes) (ts : Int)
    (hsplit : splitFirst colonByte nonce = some (tsStr, rest))
    (hts : parseHexInt tsStr = some ts) :
    (m.soft_timeout = none →
      (now < (ts : ℚ) * (1 / 10) + m.timeout → m.get_next_nonce nonce r now salt = none) ∧
      ((ts : ℚ) * (1 / 10) + m.timeout ≤ now →
        m.get_next_nonce nonce r now salt = some (m.generate_nonce r now salt))) ∧
    (m.soft_timeout = some 0 → (ts : ℚ) * (1 / 10) ≤ now →
      m.get_next_nonce nonce r now salt = some (m.generate_nonce r now salt)) := by
  constructor
  · intro hnone
    have hexp : m.nonce_has_expired nonce now m.soft_timeout
        = decide ((ts : ℚ) * (1 / 10) + m.timeout ≤ now) := by
      simp only [Manager.nonce_has_expired, hsplit, hts, hnone, Option.getD_none]
    constructor
    · intro hlt
      unfold Manager.get_next_nonce
      rw [hexp, decide_eq_false (by linarith : ¬((ts : ℚ) * (1 / 10) + m.timeout ≤ now))]
      simp
    · intro hle
      unfold Manager.get_next_nonce
      rw [hexp, decide_eq_true hle]
      simp
  · intro hzero hpast
    have hexp : m.nonce_has_expired nonce now m.soft_timeout = true := by
      simp only [Manager.nonce_has_expired, hsplit, hts, hzero, Option.getD_some]
      exact decide_eq_true (by linarith)
    unfold Manager.get_next_nonce
    rw [hexp]
    simp

/-- C4 witness: with `soft_timeout=None` and timeout 300 s, the token
`"0:a"` is kept at 100 s and renewed at 400 s; with `soft_timeout=0` it
is renewed immediately. -/
theorem get_next_nonce_soft_unset_witness :
    splitFirst colonByte [48, 58, 97] = some ([48], [97]) ∧
      parseHexInt [48] = some 0 ∧
      ((100 : ℚ) < (0 : ℚ) * (1 / 10) + mgrNoSoft.timeout →
        mgrNoSoft.get_next_nonce [48, 58, 97] reqUA 100 [7, 7, 7] = none) ∧
      (mgrZeroSoft.soft_timeout = some 0 → (0 : ℚ) * (1 / 10) ≤ 100 →
        mgrZeroSoft.get_next_nonce [48, 58, 97] reqUA 100 [7, 7, 7] =
          some (mgrZeroSoft.generate_nonce reqUA 100 [7, 7, 7])) :=
  ⟨by decide, by decide,
    fun hlt =>
      (((get_next_nonce_soft_unset mgrNoSoft [48, 58, 97] reqUA 100 [7, 7, 7] [48] [97] 0
        (by decide) (by decide)).1 rfl).1 hlt),
    (get_next_nonce_soft_unset mgrZeroSoft [48, 58, 97] reqUA 100 [7, 7, 7] [48] [97] 0
      (by decide) (by decide)).2⟩

/-- C4 counterexample: with `soft_timeout=None` ("renewal disabled" per
the claim), a hard-expired token still receives a replacement from
`get_next_nonce`, so renewal is not disabled. -/
theorem get_next_nonce_soft_unset_cex :
    mgrNoSoft.soft_timeout = none ∧
      mgrNoSoft.get_next_nonce [48, 58, 97] reqUA 1000000 [0, 1, 2] ≠ none := by
  refine ⟨rfl, ?_⟩
  have h1 : splitFirst colonByte [48, 58, 97] = some ([48], [97]) := by decide
  have h2 : parseHexInt [48] = some 0 := by decide
  have hexp : mgrNoSoft.nonce_has_expired [48, 58, 97] 1000000 mgrNoSoft.soft_timeout
      = true := by
    simp only [Manager.nonce_has_expired, h1, h2]
    exact decide_eq_true (by norm_num [mgrNoSoft])
  unfold Manager.get_next_nonce
  rw [hexp]
  simp

/-! ## Lemmas: the HKDF-Expand loop -/

/-- The loop of `get_prandom_bytes`, started from block `T(i)` at counter
`i + 1`, produces exactly the reference blocks `T(i+1), ..., T(i+fuel)`. -/
theorem prandomBlocks_eq_hkdfT (m : Manager) (nonce : Bytes) :
    ∀ (fuel i : Nat),
      m.prandomBlocks nonce (m.hkdfT nonce i) (i + 1) fuel =
        (List.range fuel).map (fun j => m.hkdfT nonce (i + 1 + j)) := by
  intro fuel
  induction fuel with
  | zero => intro i; rfl
  | succ f ih =>
    intro i
    simp only [Manager.prandomBlocks]
    rw [show m.H m.generation_key (m.hkdfT nonce i ++ nonce ++ [i + 1])
        = m.hkdfT nonce (i + 1) from rfl]
    rw [ih (i + 1), List.range_succ_eq_map, List.map_cons, List.map_map]
    congr 1
    have hfg : (fun j => m.hkdfT nonce (i + 1 + 1 + j))
        = ((fun j => m.hkdfT nonce (i + 1 + j)) ∘ Nat.succ) := by
      funext j
      simp only [Function.comp_apply]
      congr 1
      omega
    rw [hfg]

/-- The loop started as in the source (`T = ""`, counter 1). -/
theorem prandomBlocks_from_one (m : Manager) (nonce : Bytes) (N : Nat) :
    m.prandomBlocks nonce [] 1 N = (List.range N).map (fun j => m.hkdfT nonce (j + 1)) := by
  have h := prandomBlocks_eq_hkdfT m nonce N 0
  simp only [Nat.zero_add] at h
  rw [show m.hkdfT nonce 0 = [] from rfl] at h
  rw [h]
  have hfg : (fun j => m.hkdfT nonce (1 + j)) = (fun j => m.hkdfT nonce (j + 1)) := by
    funext j
    congr 1
    omega
  rw [hfg]

/-- Total length of the first `N` reference blocks. -/
theorem flatten_length_hkdfT (m : Manager) (nonce : Bytes)
    (hH : ∀ k msg, (m.H k msg).length = m.digest_size) :
    ∀ N : Nat,
      (((List.range N).map (fun j => m.hkdfT nonce (j + 1))).flatten).length
        = N * m.digest_size := by
  intro N
  induction N with
  | zero => simp
  | succ n ih =>
    rw [List.range_succ, List.map_append, List.flatten_append, List.length_append, ih]
    have hlen : (m.hkdfT nonce (n + 1)).length = m.digest_size := by
      rw [show m.hkdfT nonce (n + 1)
          = m.H m.generation_key (m.hkdfT nonce n ++ nonce ++ [n + 1]) from rfl]
      exact hH _ _
    simp [hlen]
    ring

/-- The block count `ceil(size / digest_size)` stays within the RFC5869
bound when `size` does. -/
theorem ceilDiv_le_255 {size ds : Nat} (hd : 0 < ds) (hsize : size ≤ 255 * ds) :
    (size + ds - 1) / ds ≤ 255 := by
  have h1 : size + ds ≤ 256 * ds := by linarith
  have h2 : size + ds - 1 < 256 * ds := by omega
  have h3 : (size + ds - 1) / ds < 256 := (Nat.div_lt_iff_lt_mul hd).mpr h2
  omega

/-- `ceil(size / ds)` blocks of `ds` bytes cover `size` bytes. -/
theorem le_ceilDiv_mul {size ds : Nat} (hd : 0 < ds) :
    size ≤ (size + ds - 1) / ds * ds := by
  have hdm := Nat.div_add_mod (size + ds - 1) ds
  have hmlt : (size + ds - 1) % ds < ds := Nat.mod_lt _ hd
  rw [Nat.mul_comm]
  obtain ⟨A, hA⟩ : ∃ A, ds * ((size + ds - 1) / ds) = A := ⟨_, rfl⟩
  obtain ⟨r, hr⟩ : ∃ r, (size + ds - 1) % ds = r := ⟨_, rfl⟩
  rw [hA, hr] at hdm
  rw [hr] at hmlt
  rw [hA]
  omega

/-- Within the expansion bound, `get_prandom_bytes` returns the
reference HKDF-Expand output. -/
theorem get_prandom_bytes_eq_ref (m : Manager) (nonce : Bytes) (size : Nat)
    (hd : 0 < m.digest_size) (hsize : size ≤ 255 * m.digest_size) :
    m.get_prandom_bytes nonce size = some (m.hkdfExpandRef nonce size) := by
  have hN : (size + m.digest_size - 1) / m.digest_size ≤ 255 := ceilDiv_le_255 hd hsize
  unfold Manager.get_prandom_bytes Manager.hkdfExpandRef
  rw [if_neg (by omega), prandomBlocks_from_one]

/-- Truncating the reference stream is independent of the block count,
as long as enough blocks are taken. -/
theorem take_flatten_hkdfT (m : Manager) (nonce : Bytes)
    (hH : ∀ k msg, (m.H k msg).length = m.digest_size)
    (s N1 N2 : Nat) (hN : N1 ≤ N2) (hs : s ≤ N1 * m.digest_size) :
    (((List.range N1).map (fun j => m.hkdfT nonce (j + 1))).flatten).take s
      = (((List.range N2).map (fun j => m.hkdfT nonce (j + 1))).flatten).take s := by
  obtain ⟨k, rfl⟩ : ∃ k, N2 = N1 + k := ⟨N2 - N1, by omega⟩
  rw [List.range_add, List.map_append, List.flatten_append, List.take_append_eq_append_take]
  rw [flatten_length_hkdfT m nonce hH N1, Nat.sub_eq_zero_of_le hs, List.take_zero,
    List.append_nil]

/-- C7: requesting more than `255 * digest_size` bytes (equivalently,
`ceil(size / digest_size) > 255`) makes `get_prandom_bytes` fail the
`assert N <= 255` contract — modelled as `none` — rather than truncate
or loop. -/
theorem get_prandom_bytes_oversize (m : Manager) (nonce : Bytes) (size : Nat)
    (hd : 0 < m.digest_size) (h : 255 * m.digest_size < size) :
    m.get_prandom_bytes nonce size = none := by
  unfold Manager.get_prandom_bytes
  rw [if_pos]
  have h1 : 256 * m.digest_size ≤ size + m.digest_size - 1 := by
    have h2 : 255 * m.digest_size + m.digest_size = 256 * m.digest_size := by ring
    omega
  exact Nat.lt_of_lt_of_le (by norm_num) ((Nat.le_div_iff_mul_le hd).mpr h1)

/-- C7 witness: with a 2-byte digest, requesting 511 bytes fails. -/
theorem get_prandom_bytes_oversize_witness :
    0 < mgrMain.digest_size ∧ 255 * mgrMain.digest_size < 511 ∧
      mgrMain.get_prandom_bytes [1, 2] 511 = none :=
  ⟨by decide, by decide, get_prandom_bytes_oversize mgrMain [1, 2] 511 (by decide) (by decide)⟩

/-- C8: for `size` within the expansion bound, `get_prandom_bytes` is
the (deterministic) HKDF-Expand reference — the first `size` bytes of
`T(1) ++ T(2) ++ ...` — returns exactly `size` bytes, and returns the
empty string for `size = 0`. -/
theorem get_prandom_bytes_spec (m : Manager) (nonce : Bytes) (size : Nat)
    (hd : 0 < m.digest_size)
    (hH : ∀ k msg, (m.H k msg).length = m.digest_size)
    (hsize : size ≤ 255 * m.digest_size) :
    m.get_prandom_bytes nonce size = some (m.hkdfExpandRef nonce size) ∧
      (m.hkdfExpandRef nonce size).length = size ∧
      m.get_prandom_bytes nonce 0 = some [] := by
  refine ⟨get_prandom_bytes_eq_ref m nonce size hd hsize, ?_, ?_⟩
  · unfold Manager.hkdfExpandRef
    rw [List.length_take, flatten_length_hkdfT m nonce hH]
    exact Nat.min_eq_left (le_ceilDiv_mul hd)
  · unfold Manager.get_prandom_bytes
    rw [Nat.div_eq_of_lt (by omega)]
    simp [Manager.prandomBlocks]

/-- C8 witness: with a 2-byte digest, 5 requested bytes are returned
exactly, matching the reference, and a 0-byte request yields `""`. -/
theorem get_prandom_bytes_spec_witness :
    0 < mgrMain.digest_size ∧ (∀ k msg, (mgrMain.H k msg).length = mgrMain.digest_size) ∧
      5 ≤ 255 * mgrMain.digest_size ∧
      (mgrMain.get_prandom_bytes [1, 2] 5 = some (mgrMain.hkdfExpandRef [1, 2] 5) ∧
        (mgrMain.hkdfExpandRef [1, 2] 5).length = 5 ∧
        mgrMain.get_prandom_bytes [1, 2] 0 = some []) :=
  ⟨by decide, fun _ _ => rfl, by decide,
    get_prandom_bytes_spec mgrMain [1, 2] 5 (by decide) (fun _ _ => rfl) (by decide)⟩

/-- C10: pseudo-random output is prefix-consistent — for `s ≤ s2`, both
within the expansion bound, the `s`-byte output is the first `s` bytes
of the `s2`-byte output. -/
theorem get_prandom_bytes_take_of_le (m : Manager) (nonce : Bytes) (s s2 : Nat)
    (hd : 0 < m.digest_size)
    (hH : ∀ k msg, (m.H k msg).length = m.digest_size)
    (h12 : s ≤ s2) (h2 : s2 ≤ 255 * m.digest_size) :
    ∃ a b, m.get_prandom_bytes nonce s = some a ∧
      m.get_prandom_bytes nonce s2 = some b ∧ a = b.take s := by
  have hs1 : s ≤ 255 * m.digest_size := le_trans h12 h2
  refine ⟨m.hkdfExpandRef nonce s, m.hkdfExpandRef nonce s2,
    get_prandom_bytes_eq_ref m nonce s hd hs1,
    get_prandom_bytes_eq_ref m nonce s2 hd h2, ?_⟩
  unfold Manager.hkdfExpandRef
  rw [List.take_take, Nat.min_eq_left h12]
  exact take_flatten_hkdfT m nonce hH s _ _
    (Nat.div_le_div_right (by omega)) (le_ceilDiv_mul hd)

/-- C10 witness: 3 bytes are a prefix of 5 bytes at the toy instance. -/
theorem get_prandom_bytes_take_of_le_witness :
    0 < mgrMain.digest_size ∧ (∀ k msg, (mgrMain.H k msg).length = mgrMain.digest_size) ∧
      3 ≤ 5 ∧ 5 ≤ 255 * mgrMain.digest_size ∧
      ∃ a b, mgrMain.get_prandom_bytes [1, 2] 3 = some a ∧
        mgrMain.get_prandom_bytes [1, 2] 5 = some b ∧ a = b.take 3 :=
  ⟨by decide, fun _ _ => rfl, by decide, by decide,
    get_prandom_bytes_take_of_le mgrMain [1, 2] 3 5 (by decide) (fun _ _ => rfl)
      (by decide) (by decide)⟩

/-! ## Lemmas: the counter dict and the purge queue -/

theorem dictContains_iff_mem_keys (x : Bytes) (d : List (Bytes × Int)) :
    dictContains x d = true ↔ x ∈ d.map Prod.fst := by
  simp [dictContains, List.any_eq_true, List.mem_map]

theorem keys_dictPop (k : Bytes) :
    ∀ d : List (Bytes × Int), (dictPop k d).map Prod.fst = (d.map Prod.fst).erase k := by
  intro d
  induction d with
  | nil => rfl
  | cons p r ih =>
    obtain ⟨k2, v2⟩ := p
    by_cases h : k2 = k
    · simp [dictPop, h, List.erase_cons_head]
    · simp only [dictPop, if_neg h, List.map_cons, ih]
      rw [List.erase_cons_tail]
      simp [h]

theorem keys_dictSet_mem (k : Bytes) (v : Int) :
    ∀ d : List (Bytes × Int), dictContains k d = true →
      (dictSet k v d).map Prod.fst = d.map Prod.fst := by
  intro d
  induction d with
  | nil => intro h; simp [dictContains] at h
  | cons p r ih =>
    intro h
    obtain ⟨k2, v2⟩ := p
    by_cases he : k2 = k
    · simp [dictSet, he]
    · simp only [dictSet, if_neg he, List.map_cons, List.cons.injEq, true_and]
      refine ih ?_
      simp [dictContains] at h ⊢
      rcases h with h | h
      · exact absurd h he
      · exact h

theorem keys_dictSet_new (k : Bytes) (v : Int) :
    ∀ d : List (Bytes × Int), dictContains k d = false →
      (dictSet k v d).map Prod.fst = d.map Prod.fst ++ [k] := by
  intro d
  induction d with
  | nil => intro _; rfl
  | cons p r ih =>
    intro h
    obtain ⟨k2, v2⟩ := p
    simp only [dictContains, List.any_cons, Bool.or_eq_false_iff] at h
    obtain ⟨h1, h2⟩ := h
    have he : k2 ≠ k := by
      intro e
      rw [e] at h1
      simp at h1
    simp only [dictSet, if_neg he, List.map_cons, List.cons_append, List.cons.injEq, true_and]
    exact ih h2

theorem mem_heapInsert (x n : Bytes) :
    ∀ q : List Bytes, x ∈ heapInsert n q ↔ x = n ∨ x ∈ q := by
  intro q
  induction q with
  | nil => simp [heapInsert]
  | cons y r ih =>
    simp only [heapInsert]
    split
    · simp
    · simp only [List.mem_cons, ih]
      tauto

theorem nodup_heapInsert (n : Bytes) :
    ∀ q : List Bytes, q.Nodup → n ∉ q → (heapInsert n q).Nodup := by
  intro q
  induction q with
  | nil => intro _ _; simp [heapInsert]
  | cons y r ih =>
    intro hnd hn
    simp only [heapInsert]
    split
    · exact List.nodup_cons.mpr ⟨hn, hnd⟩
    · rw [List.nodup_cons] at hnd
      refine List.nodup_cons.mpr ⟨?_, ih hnd.2 (fun hm => hn (List.mem_cons_of_mem y hm))⟩
      rw [mem_heapInsert]
      rintro (he | hm)
      · exact hn (he ▸ List.mem_cons_self y r)
      · exact hnd.1 hm

theorem dictContains_dictPop_false (x k : Bytes) (d : List (Bytes × Int))
    (h : dictContains x d = false) : dictContains x (dictPop k d) = false := by
  cases hc : dictContains x (dictPop k d) with
  | false => rfl
  | true =>
    exfalso
    have hm := (dictContains_iff_mem_keys x (dictPop k d)).mp hc
    rw [keys_dictPop] at hm
    have : x ∈ d.map Prod.fst := List.mem_of_mem_erase hm
    rw [← dictContains_iff_mem_keys] at this
    rw [h] at this
    exact Bool.false_ne_true this

theorem dictContains_foldPop_false (x : Bytes) :
    ∀ (L : List Bytes) (d : List (Bytes × Int)), dictContains x d = false →
      dictContains x (L.foldl (fun d n => dictPop n d) d) = false := by
  intro L
  induction L with
  | nil => intro d h; exact h
  | cons a L2 ih =>
    intro d h
    exact ih (dictPop a d) (dictContains_dictPop_false x a d h)

/-- The purge loop never breaks the state invariant. -/
theorem purgeLoop_WF (m : Manager) (now : ℚ) :
    ∀ (fuel : Nat) (s : NonceState), StateWF s → StateWF (m.purgeLoop now fuel s) := by
  intro fuel
  induction fuel with
  | zero => intro s h; exact h
  | succ f ih =>
    intro s h
    obtain ⟨hq, hk, hiff⟩ := h
    cases hqe : s.nonce_purge_queue with
    | nil =>
      simp only [Manager.purgeLoop, hqe]
      exact ⟨hq, hk, hiff⟩
    | cons n rest =>
      cases hexp : m.nonce_has_expired n now none with
      | false =>
        simp only [Manager.purgeLoop, hqe, hexp, Bool.not_false, if_true]
        exact ⟨hq, hk, hiff⟩
      | true =>
        have hstep : m.purgeLoop now (f + 1) s
            = m.purgeLoop now f ⟨dictPop n s.nonce_counts, rest⟩ := by
          simp [Manager.purgeLoop, hqe, hexp]
        rw [hstep]
        rw [hqe] at hq hiff
        refine ih _ ⟨(List.nodup_cons.mp hq).2, ?_, ?_⟩
        · show ((dictPop n s.nonce_counts).map Prod.fst).Nodup
          rw [keys_dictPop]
          exact hk.erase n
        · intro x
          show x ∈ rest ↔ dictContains x (dictPop n s.nonce_counts) = true
          rw [dictContains_iff_mem_keys, keys_dictPop, List.Nodup.mem_erase_iff hk]
          have hx := hiff x
          rw [dictContains_iff_mem_keys] at hx
          constructor
          · intro hr
            have hne : x ≠ n := by
              rintro rfl
              exact (List.nodup_cons.mp hq).1 hr
            exact ⟨hne, hx.mp (List.mem_cons_of_mem n hr)⟩
          · rintro ⟨hne, hkx⟩
            rcases List.mem_cons.mp (hx.mpr hkx) with he | hr
            · exact absurd he hne
            · exact hr

/-- What one bounded purge sweep does: it drops some prefix of the queue
of length `k` within the fuel, pops exactly the counter entries of that
prefix, every dropped token is expired, and unless the fuel ran out it
stopped at a non-expired head (or an empty queue). -/
theorem purgeLoop_spec (m : Manager) (now : ℚ) :
    ∀ (fuel : Nat) (s : NonceState),
      ∃ k, k ≤ fuel ∧ k ≤ s.nonce_purge_queue.length ∧
        (m.purgeLoop now fuel s).nonce_purge_queue = s.nonce_purge_queue.drop k ∧
        (m.purgeLoop now fuel s).nonce_counts
          = (s.nonce_purge_queue.take k).foldl (fun d n => dictPop n d) s.nonce_counts ∧
        (∀ n ∈ s.nonce_purge_queue.take k, m.nonce_has_expired n now none = true) ∧
        (∀ n rest, k < fuel → s.nonce_purge_queue.drop k = n :: rest →
          m.nonce_has_expired n now none = false) := by
  intro fuel
  induction fuel with
  | zero =>
    intro s
    exact ⟨0, Nat.le_refl 0, Nat.zero_le _, by simp [Manager.purgeLoop],
      by simp [Manager.purgeLoop], by simp, fun n rest hk => absurd hk (by omega)⟩
  | succ f ih =>
    intro s
    cases hqe : s.nonce_purge_queue with
    | nil =>
      refine ⟨0, Nat.zero_le _, Nat.zero_le _, ?_, ?_, by simp, ?_⟩
      · simp [Manager.purgeLoop, hqe]
      · simp [Manager.purgeLoop, hqe]
      · intro n rest _ hdrop
        simp at hdrop
    | cons n rest =>
      cases hexp : m.nonce_has_expired n now none with
      | false =>
        refine ⟨0, Nat.zero_le _, Nat.zero_le _, ?_, ?_, by simp, ?_⟩
        · simp [Manager.purgeLoop, hqe, hexp]
        · simp [Manager.purgeLoop, hqe, hexp]
        · intro n2 rest2 _ hdrop
          simp only [List.drop_zero, List.cons.injEq] at hdrop
          rw [← hdrop.1]
          exact hexp
      | true =>
        have hstep : m.purgeLoop now (f + 1) s
            = m.purgeLoop now f ⟨dictPop n s.nonce_counts, rest⟩ := by
          simp [Manager.purgeLoop, hqe, hexp]
        obtain ⟨k, hk1, hk2, hq2, hc2, hall, hstop⟩ :=
          ih ⟨dictPop n s.nonce_counts, rest⟩
        refine ⟨k + 1, by omega, ?_, ?_, ?_, ?_, ?_⟩
        · have hk2b : k ≤ rest.length := hk2
          simp only [List.length_cons]
          omega
        · rw [hstep, hq2]
          simp [List.drop_succ_cons]
        · rw [hstep, hc2]
          simp [List.take_succ_cons, List.foldl_cons]
        · intro n2 hn2
          rw [List.take_succ_cons] at hn2
          rcases List.mem_cons.mp hn2 with he | hm
          · rw [he]
            exact hexp
          · exact hall n2 hm
        · intro n2 rest2 hlt hdrop
          rw [List.drop_succ_cons] at hdrop
          exact hstop n2 rest2 (by omega) hdrop

/-- `set_nonce_count` keeps the queue/counter-store invariant. -/
theorem set_nonce_count_preserves_WF (m : Manager) (now : ℚ) (nonce : Bytes) (nc : Int)
    (s : NonceState) (hwf : StateWF s) :
    StateWF (m.set_nonce_count now nonce nc s) := by
  cases hc : dictContains nonce s.nonce_counts with
  | true =>
    have hfinal : m.set_nonce_count now nonce nc s
        = ⟨dictSet nonce nc s.nonce_counts, s.nonce_purge_queue⟩ := by
      simp [Manager.set_nonce_count, hc]
    rw [hfinal]
    obtain ⟨hq, hk, hiff⟩ := hwf
    refine ⟨hq, ?_, ?_⟩
    · show ((dictSet nonce nc s.nonce_counts).map Prod.fst).Nodup
      rw [keys_dictSet_mem nonce nc s.nonce_counts hc]
      exact hk
    · intro x
      show x ∈ s.nonce_purge_queue ↔ dictContains x (dictSet nonce nc s.nonce_counts) = true
      rw [dictContains_iff_mem_keys, keys_dictSet_mem nonce nc s.nonce_counts hc,
        ← dictContains_iff_mem_keys]
      exact hiff x
  | false =>
    have hfinal : m.set_nonce_count now nonce nc s
        = ⟨dictSet nonce nc (m.purgeLoop now 10 s).nonce_counts,
            heapInsert nonce (m.purgeLoop now 10 s).nonce_purge_queue⟩ := by
      simp [Manager.set_nonce_count, Manager.purge_expired_nonces, hc]
    rw [hfinal]
    obtain ⟨hq2, hk2, hiff2⟩ := purgeLoop_WF m now 10 s hwf
    have hnc2 : dictContains nonce (m.purgeLoop now 10 s).nonce_counts = false := by
      obtain ⟨k, -, -, -, hc2, -, -⟩ := purgeLoop_spec m now 10 s
      rw [hc2]
      exact dictContains_foldPop_false nonce _ _ hc
    have hnq2 : nonce ∉ (m.purgeLoop now 10 s).nonce_purge_queue := by
      intro hm
      have := (hiff2 nonce).mp hm
      rw [hnc2] at this
      exact Bool.false_ne_true this
    refine ⟨?_, ?_, ?_⟩
    · exact nodup_heapInsert nonce _ hq2 hnq2
    · show ((dictSet nonce nc (m.purgeLoop now 10 s).nonce_counts).map Prod.fst).Nodup
      rw [keys_dictSet_new nonce nc _ hnc2]
      refine List.Nodup.append hk2 (List.nodup_singleton nonce) ?_
      intro x hx hx2
      rw [List.mem_singleton] at hx2
      rw [hx2, ← dictContains_iff_mem_keys, hnc2] at hx
      exact Bool.false_ne_true hx
    · intro x
      show x ∈ heapInsert nonce (m.purgeLoop now 10 s).nonce_purge_queue ↔
        dictContains x (dictSet nonce nc (m.purgeLoop now 10 s).nonce_counts) = true
      rw [mem_heapInsert, dictContains_iff_mem_keys, keys_dictSet_new nonce nc _ hnc2,
        List.mem_append, List.mem_singleton]
      have hx := hiff2 x
      rw [dictContains_iff_mem_keys] at hx
      tauto

/-- C9: every sequential `set_nonce_count` preserves the state invariant
— the queue is duplicate-free and registers exactly the tokens holding a
counter-store entry — and the bounded purge sweep it triggers (limit 10)
drops a prefix of the queue consisting only of expired tokens, pops
exactly those tokens' counter entries, and stops at the first
non-expired head unless the limit is exhausted first.  (All other
operations of the manager read or never touch this state.) -/
theorem set_nonce_count_state_invariant (m : Manager) (now : ℚ) (nonce : Bytes) (nc : Int)
    (s : NonceState) (hwf : StateWF s) :
    StateWF (m.set_nonce_count now nonce nc s) ∧
      (∃ k, k ≤ 10 ∧ k ≤ s.nonce_purge_queue.length ∧
        (m.purge_expired_nonces now (some 10) s).nonce_purge_queue
          = s.nonce_purge_queue.drop k ∧
        (m.purge_expired_nonces now (some 10) s).nonce_counts
          = (s.nonce_purge_queue.take k).foldl (fun d n => dictPop n d) s.nonce_counts ∧
        (∀ n ∈ s.nonce_purge_queue.take k, m.nonce_has_expired n now none = true) ∧
        (∀ n rest, k < 10 → s.nonce_purge_queue.drop k = n :: rest →
          m.nonce_has_expired n now none = false)) := by
  refine ⟨set_nonce_count_preserves_WF m now nonce nc s hwf, ?_⟩
  exact purgeLoop_spec m now 10 s

/-- C9 witness: the invariant and the purge characterisation at the
freshly constructed (empty) state. -/
theorem set_nonce_count_state_invariant_witness :
    StateWF initialState ∧
      (StateWF (mgrMain.set_nonce_count 5 [48, 58, 97] 1 initialState) ∧
        (∃ k, k ≤ 10 ∧ k ≤ initialState.nonce_purge_queue.length ∧
          (mgrMain.purge_expired_nonces 5 (some 10) initialState).nonce_purge_queue
            = initialState.nonce_purge_queue.drop k ∧
          (mgrMain.purge_expired_nonces 5 (some 10) initialState).nonce_counts
            = (initialState.nonce_purge_queue.take k).foldl (fun d n => dictPop n d)
                initialState.nonce_counts ∧
          (∀ n ∈ initialState.nonce_purge_queue.take k,
            mgrMain.nonce_has_expired n 5 none = true) ∧
          (∀ n rest, k < 10 → initialState.nonce_purge_queue.drop k = n :: rest →
            mgrMain.nonce_has_expired n 5 none = false))) :=
  ⟨by simp [StateWF, initialState, dictContains],
    set_nonce_count_state_invariant mgrMain 5 [48, 58, 97] 1 initialState
      (by simp [StateWF, initialState, dictContains])⟩

end SrpAuth
